import Mathlib

/-!
Verification of the Fisher-formalism analysis core
(`smff/analysis/fisher.py`).

The embedding follows the source closely:

* a parameter vector (`g_parameters.params`) is a mapping from parameter
  names to rational values; the Python `deepcopy` followed by a single-key
  mutation is `Function.update`;
* a pixel image (a numpy array of fixed stamp shape) is a function from an
  abstract finite pixel index type to the rationals; numpy elementwise
  arithmetic is pointwise arithmetic and `.sum()` is the finite sum over
  all pixels;
* a Python dict built by nested `for` loops with `d[key] = value`
  assignments is a fold of `Function.update` steps over the list of loop
  indices, into an `Option`-valued map (`none` models a missing key);
  dictionaries whose entries are determined by their key alone are
  modelled directly as total functions of the key;
* `np.linalg.inv` (an external linear-algebra call, per the design the
  only collaborator used by the solver adapter) is modelled in exact
  arithmetic: it fails with the `Singular matrix` error exactly on
  matrices of determinant zero, and otherwise returns the exact inverse;
* `math.sqrt` (an external real square root applied to floats) is
  modelled as an abstract function `sqrtFn`; theorems that need the
  defining property of the square root take it as a hypothesis at the
  points where it is used;
* a Python exception aborting `__init__` is an `Except.error` value
  threaded through the construction sequence.
-/

namespace WLFisher

/-! ## Python dictionaries built by index loops -/

/-- A Python dict built by a loop `for a in keys: d[keyOf a] = valOf a`,
starting from the empty dict.  Later assignments overwrite earlier ones,
exactly as in Python. -/
def dictBuild {α κ β : Type} [DecidableEq κ]
    (keys : List α) (keyOf : α → κ) (valOf : α → β) : κ → Option β :=
  keys.foldl (fun m a => Function.update m (keyOf a) (some (valOf a))) (fun _ => none)

theorem dictFold_apply_of_not_mem {α κ β : Type} [DecidableEq κ]
    (keys : List α) (keyOf : α → κ) (valOf : α → β) (k : κ)
    (init : κ → Option β) (h : ∀ a ∈ keys, keyOf a ≠ k) :
    keys.foldl (fun m a => Function.update m (keyOf a) (some (valOf a))) init k = init k := by
  induction keys generalizing init with
  | nil => rfl
  | cons a t ih =>
      simp only [List.foldl_cons]
      rw [ih _ (fun b hb => h b (List.mem_cons_of_mem a hb))]
      exact Function.update_noteq (Ne.symm (h a (List.mem_cons_self a t))) _ init

theorem dictBuild_apply_of_not_mem {α κ β : Type} [DecidableEq κ]
    (keys : List α) (keyOf : α → κ) (valOf : α → β) (k : κ)
    (h : ∀ a ∈ keys, keyOf a ≠ k) :
    dictBuild keys keyOf valOf k = none :=
  dictFold_apply_of_not_mem keys keyOf valOf k _ h

theorem dictFold_apply_of_mem_const {α κ β : Type} [DecidableEq κ]
    (keys : List α) (keyOf : α → κ) (valOf : α → β) (g : κ → β)
    (hval : ∀ a ∈ keys, valOf a = g (keyOf a)) (k : κ)
    (init : κ → Option β) (hmem : ∃ a ∈ keys, keyOf a = k) :
    keys.foldl (fun m a => Function.update m (keyOf a) (some (valOf a))) init k
      = some (g k) := by
  induction keys generalizing init with
  | nil => exact absurd hmem (by simp)
  | cons a t ih =>
      simp only [List.foldl_cons]
      by_cases hex : ∃ b ∈ t, keyOf b = k
      · exact ih (fun b hb => hval b (List.mem_cons_of_mem a hb)) _ hex
      · have ha : keyOf a = k := by
          rcases hmem with ⟨b, hb, hbk⟩
          rcases List.mem_cons.mp hb with hba | hbt
          · rw [← hba]; exact hbk
          · exact absurd ⟨b, hbt, hbk⟩ hex
        rw [dictFold_apply_of_not_mem t keyOf valOf k _
              (fun b hb hbk => hex ⟨b, hb, hbk⟩)]
        rw [← ha, Function.update_same, hval a (List.mem_cons_self a t), ha]

theorem dictBuild_apply_of_mem_const {α κ β : Type} [DecidableEq κ]
    (keys : List α) (keyOf : α → κ) (valOf : α → β) (g : κ → β)
    (hval : ∀ a ∈ keys, valOf a = g (keyOf a)) (k : κ)
    (hmem : ∃ a ∈ keys, keyOf a = k) :
    dictBuild keys keyOf valOf k = some (g k) :=
  dictFold_apply_of_mem_const keys keyOf valOf g hval k _ hmem

theorem dictFold_apply_of_mem_uniq {α κ β : Type} [DecidableEq κ]
    (keys : List α) (keyOf : α → κ) (valOf : α → β) (a₀ : α)
    (hmem : a₀ ∈ keys) (huniq : ∀ b ∈ keys, keyOf b = keyOf a₀ → b = a₀)
    (init : κ → Option β) :
    keys.foldl (fun m a => Function.update m (keyOf a) (some (valOf a))) init (keyOf a₀)
      = some (valOf a₀) := by
  induction keys generalizing init with
  | nil => exact absurd hmem (by simp)
  | cons a t ih =>
      simp only [List.foldl_cons]
      by_cases hta : a₀ ∈ t
      · exact ih hta (fun b hb => huniq b (List.mem_cons_of_mem a hb)) _
      · have haa : a = a₀ := by
          rcases List.mem_cons.mp hmem with h | h
          · exact h.symm
          · exact absurd h hta
        have hnone : ∀ b ∈ t, keyOf b ≠ keyOf a₀ := by
          intro b hb hbk
          have hba : b = a₀ := huniq b (List.mem_cons_of_mem a hb) hbk
          exact hta (hba ▸ hb)
        rw [dictFold_apply_of_not_mem t keyOf valOf _ _ hnone, haa,
          Function.update_same]

theorem dictFold_isSome_of_mem {α κ β : Type} [DecidableEq κ]
    (keys : List α) (keyOf : α → κ) (valOf : α → β) (k : κ)
    (init : κ → Option β) (hmem : ∃ a ∈ keys, keyOf a = k) :
    (keys.foldl (fun m a => Function.update m (keyOf a) (some (valOf a))) init k).isSome := by
  induction keys generalizing init with
  | nil => exact absurd hmem (by simp)
  | cons a t ih =>
      simp only [List.foldl_cons]
      by_cases hex : ∃ b ∈ t, keyOf b = k
      · exact ih _ hex
      · have ha : keyOf a = k := by
          rcases hmem with ⟨b, hb, hbk⟩
          rcases List.mem_cons.mp hb with hba | hbt
          · rw [← hba]; exact hbk
          · exact absurd ⟨b, hbt, hbk⟩ hex
        rw [dictFold_apply_of_not_mem t keyOf valOf k _
              (fun b hb hbk => hex ⟨b, hb, hbk⟩), ← ha, Function.update_same]
        rfl

/-! ## Loop index spaces

`pairList P` is the sequence of index pairs visited by the nested loops
`for i in range(num_params): for j in range(num_params)`, in program
order; `tripleList P` is the corresponding triple loop. -/

def pairList (P : ℕ) : List (Fin P × Fin P) :=
  (List.finRange P).flatMap fun i => (List.finRange P).map fun j => (i, j)

def tripleList (P : ℕ) : List (Fin P × Fin P × Fin P) :=
  (List.finRange P).flatMap fun j =>
    (List.finRange P).flatMap fun k =>
      (List.finRange P).map fun l => (j, k, l)

theorem mem_pairList {P : ℕ} (i j : Fin P) : (i, j) ∈ pairList P := by
  simp [pairList, List.mem_flatMap]

theorem foldl_add_map {α : Type} (l : List α) (f : α → ℚ) :
    ∀ init : ℚ, l.foldl (fun acc a => acc + f a) init = init + (l.map f).sum := by
  induction l with
  | nil => intro init; simp
  | cons a t ih =>
      intro init
      simp only [List.foldl_cons, List.map_cons, List.sum_cons]
      rw [ih (init + f a), add_assoc]

theorem sum_map_flatMap {α β : Type} (l : List α) (g : α → List β) (f : β → ℚ) :
    ((l.flatMap g).map f).sum = (l.map fun a => ((g a).map f).sum).sum := by
  induction l with
  | nil => rfl
  | cons a t ih => simp [List.flatMap_cons, List.map_append, List.sum_append, ih]

theorem sum_map_finRange {n : ℕ} (f : Fin n → ℚ) :
    ((List.finRange n).map f).sum = ∑ i, f i :=
  (Fin.sum_univ_def f).symm

/-! ## Data model

A parameter vector maps parameter names to values; a pixel image maps a
pixel of the fixed stamp to a value.  The external renderer
(`image_renderer_partials.get_image` composed with
`gparameters.get_galaxies_models`) is an arbitrary function from
parameter vectors to images, as in the design contract. -/

abbrev Params : Type := String → ℚ

abbrev Image (Pix : Type) : Type := Pix → ℚ

/-- Source line `params_x = copy.deepcopy(params); params_x[name] += s`. -/
def pUp (p : Params) (name : String) (s : ℚ) : Params :=
  Function.update p name (p name + s)

/-- Source line `params_x = copy.deepcopy(params); params_x[name] -= s`. -/
def pDown (p : Params) (name : String) (s : ℚ) : Params :=
  Function.update p name (p name - s)

/-! ## Derivative engine

The derivative dictionaries of the source are keyed by parameter name
(respectively by a pair of names), and each stored value is determined by
its key alone, so they are embedded as total functions of the key. -/

/-- Embedding of `Fisher.get_derivative_images`, entry at key `param`:
`((img_up - img_down) / (2 * steps[param])).array`. -/
def get_derivative_images {Pix : Type} (render : Params → Image Pix)
    (params : Params) (steps : String → ℚ) (param : String) : Image Pix :=
  fun px =>
    (render (pUp params param (steps param)) px
      - render (pDown params param (steps param)) px) / (2 * steps param)

/-- Embedding of `Fisher.get_second_derivatives_images`, entry at key `(pa, pb)`:
the four corner renderings combined as
`(img_iup_jup + img_idown_jdown - img_idown_jup - img_iup_jdown) / (4 * steps[pa] * steps[pb])`. -/
def get_second_derivatives_images {Pix : Type} (render : Params → Image Pix)
    (params : Params) (steps : String → ℚ) (pa pb : String) : Image Pix :=
  fun px =>
    (render (pUp (pUp params pa (steps pa)) pb (steps pb)) px
      + render (pDown (pDown params pa (steps pa)) pb (steps pb)) px
      - render (pUp (pDown params pa (steps pa)) pb (steps pb)) px
      - render (pDown (pUp params pa (steps pa)) pb (steps pb)) px)
    / (4 * steps pa * steps pb)

/-! ## Fisher assembler -/

/-- Embedding of `Fisher.get_fisher_matrix_images`, entry at key `(pa, pb)`:
`derivative1 * derivative2 / self.var_noise` (elementwise). -/
def get_fisher_matrix_images {Pix : Type} (D : String → Image Pix)
    (varNoise : ℚ) (pa pb : String) : Image Pix :=
  fun px => D pa px * D pb px / varNoise

/-- Embedding of `Fisher.get_fisher_matrix`: the dict built by the double loop
`FisherM[param_i, param_j] = fisher_matrix_images[param_i, param_j].sum()`. -/
def get_fisher_matrix {P : ℕ} {Pix : Type} [Fintype Pix]
    (names : Fin P → String) (Fimg : String → String → Image Pix) :
    String × String → Option ℚ :=
  dictBuild (pairList P) (fun p => (names p.1, names p.2))
    (fun p => ∑ px, Fimg (names p.1) (names p.2) px)

/-! ## Matrix/labeling layer -/

/-- Embedding of `Fisher.matrix_to_numpy_array`: `array[i][j] = matrix[param_names[i], param_names[j]]`.
A missing key cannot occur in any use made by the source (all consumed
dicts are fully populated over the ordering), so the lookup is totalised
with the `np.zeros` initial value. -/
def matrix_to_numpy_array {P : ℕ} (names : Fin P → String)
    (m : String × String → Option ℚ) : Matrix (Fin P) (Fin P) ℚ :=
  Matrix.of fun i j => (m (names i, names j)).getD 0

/-- Embedding of `Fisher.numpy_array_to_matrix`: the dict built by the double loop
`matrix[param_i, param_j] = array[i][j]`. -/
def numpy_array_to_matrix {P : ℕ} (names : Fin P → String)
    (A : Matrix (Fin P) (Fin P) ℚ) : String × String → Option ℚ :=
  dictBuild (pairList P) (fun p => (names p.1, names p.2)) (fun p => A p.1 p.2)

/-- A dict is fully populated over the ordering: it holds a value at every
ordered pair of parameter names and at no other key. -/
def FullyPopulated {P : ℕ} (names : Fin P → String)
    (m : String × String → Option ℚ) : Prop :=
  (∀ i j : Fin P, (m (names i, names j)).isSome) ∧
    (∀ k, (m k).isSome → ∃ i j : Fin P, k = (names i, names j))

theorem numpy_array_to_matrix_apply {P : ℕ} (names : Fin P → String)
    (hinj : Function.Injective names) (A : Matrix (Fin P) (Fin P) ℚ) (i j : Fin P) :
    numpy_array_to_matrix names A (names i, names j) = some (A i j) := by
  have huniq : ∀ b ∈ pairList P,
      (names b.1, names b.2) = (names i, names j) → b = ((i, j) : Fin P × Fin P) := by
    intro b _ hb
    have h1 : names b.1 = names i := congrArg Prod.fst hb
    have h2 : names b.2 = names j := congrArg Prod.snd hb
    exact Prod.ext (hinj h1) (hinj h2)
  exact dictFold_apply_of_mem_uniq (pairList P) _ _ ((i, j) : Fin P × Fin P)
    (mem_pairList i j) huniq _

theorem fullyPopulated_numpy_array_to_matrix {P : ℕ} (names : Fin P → String)
    (A : Matrix (Fin P) (Fin P) ℚ) :
    FullyPopulated names (numpy_array_to_matrix names A) := by
  constructor
  · intro i j
    exact dictFold_isSome_of_mem (pairList P) _ _ _ _
      ⟨(i, j), mem_pairList i j, rfl⟩
  · intro k hk
    by_contra hex
    push_neg at hex
    unfold numpy_array_to_matrix at hk
    rw [dictBuild_apply_of_not_mem (pairList P) _ _ k
      (fun b _ hb => hex b.1 b.2 hb.symm)] at hk
    exact Bool.noConfusion hk

/-! ## Linear solver adapter

`np.linalg.inv` is an external linear-algebra call; in exact arithmetic
it raises `LinAlgError("Singular matrix")` precisely on matrices with
determinant zero and otherwise returns the inverse, here written with the
adjugate. -/

def np_linalg_inv {P : ℕ} (A : Matrix (Fin P) (Fin P) ℚ) :
    Except String (Matrix (Fin P) (Fin P) ℚ) :=
  if A.det = 0 then Except.error "Singular matrix"
  else Except.ok (A.det⁻¹ • A.adjugate)

/-- Embedding of `Fisher.get_covariance_matrix`: densify the fisher dict, invert it,
convert the inverse back to a dict. -/
def get_covariance_matrix {P : ℕ} (names : Fin P → String)
    (fisherM : String × String → Option ℚ) :
    Except String (String × String → Option ℚ) :=
  match np_linalg_inv (matrix_to_numpy_array names fisherM) with
  | Except.error e => Except.error e
  | Except.ok C => Except.ok (numpy_array_to_matrix names C)

/-- Embedding of `Fisher.get_correlation_matrix`, entry at key `(pa, pb)`:
`covariance[pa, pb] / (math.sqrt(covariance[pa, pa]) * math.sqrt(covariance[pb, pb]))`,
with `math.sqrt` abstracted as `sqrtFn`. -/
def get_correlation_matrix (sqrtFn : ℚ → ℚ) (cov : String × String → ℚ)
    (pa pb : String) : ℚ :=
  cov (pa, pb) / (sqrtFn (cov (pa, pa)) * sqrtFn (cov (pb, pb)))

/-- The correlation step of `__init__`: `math.sqrt` raises a domain error
on a negative argument, so the step fails when some diagonal covariance
entry read by the loop is negative, and otherwise produces the
correlation dict. -/
def correlation_step {P : ℕ} (sqrtFn : ℚ → ℚ) (names : Fin P → String)
    (cov : String × String → ℚ) : Except String (String → String → ℚ) :=
  if ∀ i : Fin P, 0 ≤ cov (names i, names i) then
    Except.ok (get_correlation_matrix sqrtFn cov)
  else Except.error "math domain error"

/-! ## Bias engine -/

/-- Embedding of `Fisher.get_bias_matrix_images`, entry at key `(pa, pb, pc)`:
`derivatives_images[pa] * second_derivatives_images[pb, pc] / self.var_noise`
(elementwise). -/
def get_bias_matrix_images {Pix : Type} (D : String → Image Pix)
    (S : String → String → Image Pix) (varNoise : ℚ)
    (pa pb pc : String) : Image Pix :=
  fun px => D pa px * S pb pc px / varNoise

/-- Embedding of `Fisher.get_bias_images`, entry at key `param_names[i]`: the
accumulation loop `summation += covariance[i,j] * covariance[k,l] *
bias_matrix_images[j,k,l]` over the triple loop in program order,
followed by `bias_images[...] = -.5 * summation` (elementwise). -/
def get_bias_images {P : ℕ} {Pix : Type} (names : Fin P → String)
    (cov : String × String → ℚ) (BM : String → String → String → Image Pix)
    (i : Fin P) : Image Pix :=
  fun px =>
    (-(1 / 2) : ℚ) *
      (tripleList P).foldl
        (fun acc t =>
          acc + cov (names i, names t.1) * cov (names t.2.1, names t.2.2) *
            BM (names t.1) (names t.2.1) (names t.2.2) px) 0

/-! ## Construction sequence of the analysis object -/

/-- The noise-variance selection at the top of `Fisher.__init__` for a
single galaxy: when `var_noise` is `None` the noise model
`images.add_noise(image, snr, 0)` supplies the variance, otherwise the
given value is used unchanged.  The second component records whether the
noise model was invoked. -/
def select_var_noise {Pix : Type} (addNoise : Image Pix → ℚ → ℚ)
    (image : Image Pix) (snr : ℚ) : Option ℚ → ℚ × Bool
  | none => (addNoise image snr, true)
  | some v => (v, false)

/-- The attributes exposed by a successfully constructed `Fisher` object. -/
structure FisherOutputs (P : ℕ) (Pix : Type) where
  varNoise : ℚ
  fisherMatrix : String × String → Option ℚ
  covarianceMatrix : String × String → Option ℚ
  correlationMatrix : String → String → ℚ
  biasMatrix : String → String → String → ℚ
  biasImages : Fin P → Image Pix
  biases : Fin P → ℚ
  fisherConditionNumber : ℚ
  addNoiseInvoked : Bool

/-- Embedding of `Fisher.__init__` for a single galaxy: noise-variance selection, then
the computation sequence of derivative images, fisher images, fisher
matrix, covariance (which aborts construction on a singular matrix),
correlation (which aborts on a negative diagonal), bias images and
biases, and finally the condition number `np.linalg.cond`, abstracted as
`condFn`, of the densified fisher matrix.  An uncaught Python exception
is an `Except.error`. -/
def fisherInit {P : ℕ} {Pix : Type} [Fintype Pix]
    (render : Params → Image Pix) (params : Params) (steps : String → ℚ)
    (names : Fin P → String) (snr : ℚ) (varNoiseOpt : Option ℚ)
    (addNoise : Image Pix → ℚ → ℚ) (sqrtFn : ℚ → ℚ)
    (condFn : Matrix (Fin P) (Fin P) ℚ → ℚ) :
    Except String (FisherOutputs P Pix) :=
  let vn := select_var_noise addNoise (render params) snr varNoiseOpt
  let varNoise := vn.1
  let D := get_derivative_images render params steps
  let S := get_second_derivatives_images render params steps
  let fisherM := get_fisher_matrix names (get_fisher_matrix_images D varNoise)
  match get_covariance_matrix names fisherM with
  | Except.error e => Except.error e
  | Except.ok covD =>
    let cov : String × String → ℚ := fun k => (covD k).getD 0
    match correlation_step sqrtFn names cov with
    | Except.error e => Except.error e
    | Except.ok corr =>
      let BMimg := get_bias_matrix_images D S varNoise
      let biasImgs := get_bias_images names cov BMimg
      Except.ok
        ⟨varNoise, fisherM, covD, corr,
          fun pa pb pc => ∑ px, BMimg pa pb pc px,
          biasImgs,
          fun i => ∑ px, biasImgs i px,
          condFn (matrix_to_numpy_array names fisherM),
          vn.2⟩

theorem foldl_tripleList_sum {P : ℕ} (f : Fin P × Fin P × Fin P → ℚ) :
    (tripleList P).foldl (fun acc t => acc + f t) 0
      = ∑ j : Fin P, ∑ k : Fin P, ∑ l : Fin P, f (j, k, l) := by
  rw [foldl_add_map, zero_add]
  simp only [tripleList, sum_map_flatMap, List.map_map, Function.comp_def,
    sum_map_finRange]

theorem get_fisher_matrix_apply {P : ℕ} {Pix : Type} [Fintype Pix]
    (names : Fin P → String) (Fimg : String → String → Image Pix) (i j : Fin P) :
    get_fisher_matrix names Fimg (names i, names j)
      = some (∑ px, Fimg (names i) (names j) px) := by
  unfold get_fisher_matrix
  exact dictBuild_apply_of_mem_const (pairList P)
    (fun p => (names p.1, names p.2))
    (fun p => ∑ px, Fimg (names p.1) (names p.2) px)
    (fun k => ∑ px, Fimg k.1 k.2 px)
    (fun a _ => rfl) (names i, names j) ⟨(i, j), mem_pairList i j, rfl⟩

/-! ## Claims -/

/-- C4: for every parameter `p`, the first-derivative image equals the
rendering at the base vector with `p` increased by `steps p` minus the
rendering with `p` decreased by `steps p`, divided by `2 * steps p`;
each perturbed vector changes only the entry of `p` (it is a deep copy
of the base vector with `p` alone updated). -/
theorem claim_C4_first_derivative {Pix : Type} (render : Params → Image Pix)
    (params : Params) (steps : String → ℚ) (p : String) :
    (get_derivative_images render params steps p
      = fun px =>
          (render (pUp params p (steps p)) px
            - render (pDown params p (steps p)) px) / (2 * steps p))
    ∧ pUp params p (steps p) p = params p + steps p
    ∧ pDown params p (steps p) p = params p - steps p
    ∧ ∀ q : String, q ≠ p →
        pUp params p (steps p) q = params q ∧ pDown params p (steps p) q = params q := by
  refine ⟨rfl, Function.update_same _ _ _, Function.update_same _ _ _, ?_⟩
  intro q hq
  exact ⟨Function.update_noteq hq _ _, Function.update_noteq hq _ _⟩

theorem claim_C4_first_derivative_witness :
    pUp (fun _ => (0 : ℚ)) "a" 1 "b" = 0 ∧ pDown (fun _ => (0 : ℚ)) "a" 1 "b" = 0 :=
  (claim_C4_first_derivative (fun p (_ : Fin 1) => p "a")
    (fun _ => 0) (fun _ => 1) "a").2.2.2 "b" (by decide)

/-- C3: for every ordered pair `(pa, pb)` the second-derivative image is
the four corner renderings (both up, plus both down, minus `pa` down and
`pb` up, minus `pa` up and `pb` down) divided by
`4 * steps pa * steps pb`; on the diagonal the same mixed formula
evaluates the renderer at the base vector with the parameter moved by
plus and minus twice its step; every corner vector agrees with the base
vector away from the two perturbed parameters. -/
theorem claim_C3_second_derivatives {Pix : Type} (render : Params → Image Pix)
    (params : Params) (steps : String → ℚ) (pa pb : String) :
    (get_second_derivatives_images render params steps pa pb
      = fun px =>
          (render (pUp (pUp params pa (steps pa)) pb (steps pb)) px
            + render (pDown (pDown params pa (steps pa)) pb (steps pb)) px
            - render (pUp (pDown params pa (steps pa)) pb (steps pb)) px
            - render (pDown (pUp params pa (steps pa)) pb (steps pb)) px)
          / (4 * steps pa * steps pb))
    ∧ (get_second_derivatives_images render params steps pa pa
      = fun px =>
          (render (Function.update params pa (params pa + 2 * steps pa)) px
            + render (Function.update params pa (params pa - 2 * steps pa)) px
            - 2 * render params px)
          / (4 * steps pa * steps pa))
    ∧ (∀ q : String, q ≠ pa → q ≠ pb →
        pUp (pUp params pa (steps pa)) pb (steps pb) q = params q
        ∧ pDown (pDown params pa (steps pa)) pb (steps pb) q = params q
        ∧ pUp (pDown params pa (steps pa)) pb (steps pb) q = params q
        ∧ pDown (pUp params pa (steps pa)) pb (steps pb) q = params q) := by
  refine ⟨rfl, ?_, ?_⟩
  · have e1 : pUp (pUp params pa (steps pa)) pa (steps pa)
        = Function.update params pa (params pa + 2 * steps pa) := by
      unfold pUp
      rw [Function.update_same, Function.update_idem]
      exact congrArg _ (by ring)
    have e2 : pDown (pDown params pa (steps pa)) pa (steps pa)
        = Function.update params pa (params pa - 2 * steps pa) := by
      unfold pDown
      rw [Function.update_same, Function.update_idem]
      exact congrArg _ (by ring)
    have e3 : pUp (pDown params pa (steps pa)) pa (steps pa) = params := by
      unfold pUp pDown
      rw [Function.update_same, Function.update_idem]
      have h : params pa - steps pa + steps pa = params pa := by ring
      rw [h, Function.update_eq_self]
    have e4 : pDown (pUp params pa (steps pa)) pa (steps pa) = params := by
      unfold pUp pDown
      rw [Function.update_same, Function.update_idem]
      have h : params pa + steps pa - steps pa = params pa := by ring
      rw [h, Function.update_eq_self]
    funext px
    simp only [get_second_derivatives_images]
    rw [e1, e2, e3, e4]
    ring
  · intro q hqa hqb
    refine ⟨?_, ?_, ?_, ?_⟩ <;>
      simp [pUp, pDown, Function.update_noteq hqa, Function.update_noteq hqb]

theorem claim_C3_second_derivatives_witness :
    pUp (pUp (fun _ => (0 : ℚ)) "a" 1) "b" 1 "c" = 0
    ∧ pDown (pDown (fun _ => (0 : ℚ)) "a" 1) "b" 1 "c" = 0
    ∧ pUp (pDown (fun _ => (0 : ℚ)) "a" 1) "b" 1 "c" = 0
    ∧ pDown (pUp (fun _ => (0 : ℚ)) "a" 1) "b" 1 "c" = 0 :=
  (claim_C3_second_derivatives (fun p (_ : Fin 1) => p "a")
    (fun _ => 0) (fun _ => 1) "a" "b").2.2 "c" (by decide) (by decide)

/-- C1: for every index pair `(i, j)` of the ordering, the constructed
fisher image dictionary entry is the elementwise product of the two
first-derivative images divided by the noise variance, and the fisher
matrix dictionary holds, at the key `(names i, names j)`, the sum of
that image over all pixels. -/
theorem claim_C1_fisher_matrix {P : ℕ} {Pix : Type} [Fintype Pix]
    (render : Params → Image Pix) (params : Params) (steps : String → ℚ)
    (v : ℚ) (names : Fin P → String) (i j : Fin P) :
    (get_fisher_matrix_images (get_derivative_images render params steps) v
        (names i) (names j)
      = fun px =>
          get_derivative_images render params steps (names i) px
            * get_derivative_images render params steps (names j) px / v)
    ∧ get_fisher_matrix names
        (get_fisher_matrix_images (get_derivative_images render params steps) v)
        (names i, names j)
      = some (∑ px, get_fisher_matrix_images
          (get_derivative_images render params steps) v (names i) (names j) px) := by
  exact ⟨rfl, get_fisher_matrix_apply names _ i j⟩

/-- C2: for every target index `i`, the bias image is `-1/2` times the
full contraction, over all ordered triples `(j, k, l)` of the ordering,
of `covariance[i,j] * covariance[k,l] * bias_matrix_image[j,k,l]`,
elementwise per pixel. -/
theorem claim_C2_bias_images {P : ℕ} {Pix : Type} (names : Fin P → String)
    (cov : String × String → ℚ) (D : String → Image Pix)
    (S : String → String → Image Pix) (v : ℚ) (i : Fin P) (px : Pix) :
    get_bias_images names cov (get_bias_matrix_images D S v) i px
      = (-(1 / 2) : ℚ) * ∑ j : Fin P, ∑ k : Fin P, ∑ l : Fin P,
          cov (names i, names j) * cov (names k, names l) *
            get_bias_matrix_images D S v (names j) (names k) (names l) px := by
  simp only [get_bias_images]
  rw [foldl_tripleList_sum (fun t =>
    cov (names i, names t.1) * cov (names t.2.1, names t.2.2) *
      get_bias_matrix_images D S v (names t.1) (names t.2.1) (names t.2.2) px)]

/-- C9: under the defining property of the external square root at the
diagonal entry and positivity of that entry, the diagonal correlation
entry equals one. -/
theorem claim_C9_correlation_diagonal (sqrtFn : ℚ → ℚ)
    (cov : String × String → ℚ) (p : String)
    (hpos : 0 < cov (p, p))
    (hsq : sqrtFn (cov (p, p)) * sqrtFn (cov (p, p)) = cov (p, p)) :
    get_correlation_matrix sqrtFn cov p p = 1 := by
  unfold get_correlation_matrix
  rw [hsq]
  exact div_self (ne_of_gt hpos)

theorem claim_C9_correlation_diagonal_witness :
    get_correlation_matrix (fun x => x) (fun _ => (1 : ℚ)) "a" "a" = 1 :=
  claim_C9_correlation_diagonal (fun x => x) (fun _ => (1 : ℚ)) "a"
    (by simp) (by simp)

/-- C8: on a parameter ordering of distinct names, converting a fully
populated named matrix to a dense array and back yields the same dict,
and converting a dense array to a named matrix and back yields the same
array. -/
theorem claim_C8_round_trip {P : ℕ} (names : Fin P → String)
    (hinj : Function.Injective names) :
    (∀ m : String × String → Option ℚ, FullyPopulated names m →
      numpy_array_to_matrix names (matrix_to_numpy_array names m) = m)
    ∧ ∀ A : Matrix (Fin P) (Fin P) ℚ,
        matrix_to_numpy_array names (numpy_array_to_matrix names A) = A := by
  constructor
  · intro m hm
    funext k
    unfold numpy_array_to_matrix
    by_cases hk : ∃ i j : Fin P, k = (names i, names j)
    · rcases hk with ⟨i, j, rfl⟩
      rw [dictBuild_apply_of_mem_const (pairList P)
        (fun p => (names p.1, names p.2))
        (fun p => matrix_to_numpy_array names m p.1 p.2)
        (fun key => (m key).getD 0) (fun a _ => rfl) (names i, names j)
        ⟨(i, j), mem_pairList i j, rfl⟩]
      obtain ⟨v, hv⟩ := Option.isSome_iff_exists.mp (hm.1 i j)
      rw [hv]
      rfl
    · push_neg at hk
      rw [dictBuild_apply_of_not_mem (pairList P) _ _ k
        (fun b _ hb => hk b.1 b.2 hb.symm)]
      cases hmk : m k with
      | none => rfl
      | some v =>
          rcases hm.2 k (by rw [hmk]; rfl) with ⟨i, j, h⟩
          exact absurd h (hk i j)
  · intro A
    ext i j
    show (numpy_array_to_matrix names A (names i, names j)).getD 0 = A i j
    rw [numpy_array_to_matrix_apply names hinj A i j]
    rfl

theorem claim_C8_round_trip_witness :
    numpy_array_to_matrix (fun _ : Fin 1 => "a")
        (matrix_to_numpy_array (fun _ : Fin 1 => "a")
          (numpy_array_to_matrix (fun _ : Fin 1 => "a") (Matrix.of fun _ _ => (3 : ℚ))))
      = numpy_array_to_matrix (fun _ : Fin 1 => "a") (Matrix.of fun _ _ => (3 : ℚ))
    ∧ matrix_to_numpy_array (fun _ : Fin 1 => "a")
        (numpy_array_to_matrix (fun _ : Fin 1 => "a") (Matrix.of fun _ _ => (3 : ℚ)))
      = Matrix.of fun _ _ => (3 : ℚ) :=
  ⟨(claim_C8_round_trip (fun _ : Fin 1 => "a") (fun a b _ => Subsingleton.elim a b)).1 _
      (fullyPopulated_numpy_array_to_matrix _ _),
    (claim_C8_round_trip (fun _ : Fin 1 => "a") (fun a b _ => Subsingleton.elim a b)).2 _⟩

/-- C6: when the assembled fisher matrix is singular the covariance
computation aborts with the explicit singular-matrix error, and a zero
first-derivative image for some parameter makes the assembled fisher
matrix singular. -/
theorem claim_C6_singular_fisher_error {P : ℕ} {Pix : Type} [Fintype Pix]
    (D : String → Image Pix) (v : ℚ) (names : Fin P → String) :
    ((matrix_to_numpy_array names
        (get_fisher_matrix names (get_fisher_matrix_images D v))).det = 0 →
      get_covariance_matrix names
          (get_fisher_matrix names (get_fisher_matrix_images D v))
        = Except.error "Singular matrix")
    ∧ ∀ i0 : Fin P, (∀ px, D (names i0) px = 0) →
        (matrix_to_numpy_array names
          (get_fisher_matrix names (get_fisher_matrix_images D v))).det = 0 := by
  constructor
  · intro h
    have hinv : np_linalg_inv (matrix_to_numpy_array names
        (get_fisher_matrix names (get_fisher_matrix_images D v)))
        = Except.error "Singular matrix" := by
      unfold np_linalg_inv
      rw [if_pos h]
    unfold get_covariance_matrix
    rw [hinv]
  · intro i0 hz
    apply Matrix.det_eq_zero_of_row_eq_zero i0
    intro j
    show (get_fisher_matrix names (get_fisher_matrix_images D v)
      (names i0, names j)).getD 0 = 0
    rw [get_fisher_matrix_apply]
    simp [get_fisher_matrix_images, hz]

theorem claim_C6_singular_fisher_error_witness :
    get_covariance_matrix (fun _ : Fin 1 => "a")
        (get_fisher_matrix (fun _ : Fin 1 => "a")
          (get_fisher_matrix_images (fun _ (_ : Fin 1) => 0) 1))
      = Except.error "Singular matrix" :=
  (claim_C6_singular_fisher_error (fun _ (_ : Fin 1) => 0) 1
      (fun _ : Fin 1 => "a")).1
    ((claim_C6_singular_fisher_error (fun _ (_ : Fin 1) => 0) 1
      (fun _ : Fin 1 => "a")).2 0 (fun _ => rfl))

theorem fisherInit_error_of_det_zero {P : ℕ} {Pix : Type} [Fintype Pix]
    (render : Params → Image Pix) (params : Params) (steps : String → ℚ)
    (names : Fin P → String) (snr : ℚ) (varNoiseOpt : Option ℚ)
    (addNoise : Image Pix → ℚ → ℚ) (sqrtFn : ℚ → ℚ)
    (condFn : Matrix (Fin P) (Fin P) ℚ → ℚ)
    (h : (matrix_to_numpy_array names (get_fisher_matrix names
        (get_fisher_matrix_images (get_derivative_images render params steps)
          (select_var_noise addNoise (render params) snr varNoiseOpt).1))).det = 0) :
    fisherInit render params steps names snr varNoiseOpt addNoise sqrtFn condFn
      = Except.error "Singular matrix" := by
  have hcov : get_covariance_matrix names (get_fisher_matrix names
      (get_fisher_matrix_images (get_derivative_images render params steps)
        (select_var_noise addNoise (render params) snr varNoiseOpt).1))
      = Except.error "Singular matrix" := by
    have hinv : np_linalg_inv (matrix_to_numpy_array names (get_fisher_matrix names
        (get_fisher_matrix_images (get_derivative_images render params steps)
          (select_var_noise addNoise (render params) snr varNoiseOpt).1)))
        = Except.error "Singular matrix" := by
      unfold np_linalg_inv
      rw [if_pos h]
    unfold get_covariance_matrix
    rw [hinv]
  simp only [fisherInit]
  rw [hcov]

theorem fisher_det_zero_concrete :
    (matrix_to_numpy_array (fun _ : Fin 1 => "a")
      (get_fisher_matrix (fun _ : Fin 1 => "a")
        (get_fisher_matrix_images
          (get_derivative_images (fun _ (_ : Fin 1) => 0) (fun _ => 0) (fun _ => 1))
          1))).det = 0 := by
  rw [Matrix.det_fin_one]
  show (get_fisher_matrix (fun _ : Fin 1 => "a")
    (get_fisher_matrix_images
      (get_derivative_images (fun _ (_ : Fin 1) => 0) (fun _ => 0) (fun _ => 1)) 1)
    ((fun _ : Fin 1 => "a") 0, (fun _ : Fin 1 => "a") 0)).getD 0 = 0
  rw [get_fisher_matrix_apply (fun _ : Fin 1 => "a") _ 0 0]
  simp [get_fisher_matrix_images, get_derivative_images]

/-- C5: corrected — the condition number is computed only at the end of a
successful construction; when inversion of the fisher matrix fails, the
construction aborts with the singular-matrix error before the condition
number is computed, so no condition number is made available. -/
theorem claim_C5_no_condition_number_on_failure {P : ℕ} {Pix : Type} [Fintype Pix]
    (render : Params → Image Pix) (params : Params) (steps : String → ℚ)
    (names : Fin P → String) (snr : ℚ) (varNoiseOpt : Option ℚ)
    (addNoise : Image Pix → ℚ → ℚ) (sqrtFn : ℚ → ℚ)
    (condFn : Matrix (Fin P) (Fin P) ℚ → ℚ)
    (h : (matrix_to_numpy_array names (get_fisher_matrix names
        (get_fisher_matrix_images (get_derivative_images render params steps)
          (select_var_noise addNoise (render params) snr varNoiseOpt).1))).det = 0) :
    fisherInit render params steps names snr varNoiseOpt addNoise sqrtFn condFn
      = Except.error "Singular matrix" :=
  fisherInit_error_of_det_zero render params steps names snr varNoiseOpt
    addNoise sqrtFn condFn h

theorem claim_C5_no_condition_number_on_failure_witness :
    fisherInit (fun _ (_ : Fin 1) => 0) (fun _ => 0) (fun _ => 1)
        (fun _ : Fin 1 => "a") 1 (some 1) (fun _ _ => 0) (fun x => x) (fun _ => 0)
      = Except.error "Singular matrix" :=
  claim_C5_no_condition_number_on_failure (fun _ _ => 0) (fun _ => 0) (fun _ => 1)
    (fun _ => "a") 1 (some 1) (fun _ _ => 0) (fun x => x) (fun _ => 0)
    fisher_det_zero_concrete

theorem claim_C5_counterexample :
    fisherInit (fun _ (_ : Fin 1) => 0) (fun _ => 0) (fun _ => 1)
        (fun _ : Fin 1 => "a") 1 (some 1) (fun _ _ => 0) (fun x => x) (fun _ => 0)
      = Except.error "Singular matrix" :=
  fisherInit_error_of_det_zero (fun _ _ => 0) (fun _ => 0) (fun _ => 1)
    (fun _ => "a") 1 (some 1) (fun _ _ => 0) (fun x => x) (fun _ => 0)
    fisher_det_zero_concrete

/-- C7: corrected — the derivative computation performs no validation of
the step sizes: with the steps negated it silently produces exactly the
same derivative images as with the original steps, instead of failing. -/
theorem claim_C7_no_step_validation {Pix : Type} (render : Params → Image Pix)
    (params : Params) (steps : String → ℚ) (p : String) :
    get_derivative_images render params (fun q => -(steps q)) p
      = get_derivative_images render params steps p := by
  funext px
  simp only [get_derivative_images, pUp, pDown]
  have h1 : params p + -(steps p) = params p - steps p := by ring
  have h2 : params p - -(steps p) = params p + steps p := by ring
  rw [h1, h2]
  have h3 : 2 * -(steps p) = -(2 * steps p) := by ring
  rw [h3, div_neg, ← neg_div, neg_sub]

theorem claim_C7_counterexample :
    get_derivative_images (fun p (_ : Fin 1) => p "a") (fun _ => 0)
        (fun _ => -1) "a"
      = get_derivative_images (fun p (_ : Fin 1) => p "a") (fun _ => 0)
        (fun _ => 1) "a"
    ∧ get_derivative_images (fun p (_ : Fin 1) => p "a") (fun _ => 0)
        (fun _ => -1) "a" 0 = 1 := by
  constructor
  · funext px
    simp [get_derivative_images, pUp, pDown]
    norm_num
  · simp [get_derivative_images, pUp, pDown]
    norm_num

/-- C10: with an explicitly supplied noise variance, the noise model is
not invoked and the construction result, with every exposed output,
does not depend on the supplied signal-to-noise ratio nor on the noise
model. -/
theorem claim_C10_snr_noninterference {P : ℕ} {Pix : Type} [Fintype Pix]
    (render : Params → Image Pix) (params : Params) (steps : String → ℚ)
    (names : Fin P → String) (snr1 snr2 : ℚ)
    (addNoise1 addNoise2 : Image Pix → ℚ → ℚ) (v : ℚ) (sqrtFn : ℚ → ℚ)
    (condFn : Matrix (Fin P) (Fin P) ℚ → ℚ) :
    fisherInit render params steps names snr1 (some v) addNoise1 sqrtFn condFn
      = fisherInit render params steps names snr2 (some v) addNoise2 sqrtFn condFn
    ∧ (select_var_noise addNoise1 (render params) snr1 (some v)).2 = false :=
  ⟨rfl, rfl⟩

end WLFisher
